import Mathlib

/-
  Shallow embedding of `packages.go` (package swag): the type-definition
  registry and resolver (PackagesDefinitions, CollectAstFile, ParseTypes,
  findTypeSpec, findPackagePathFromImports, FindTypeSpec, isAliasPkgName).

  Go maps are modelled as association lists (first match wins on lookup,
  in-place replacement on insert, so keys stay unique); Go `nil` maps are
  modelled as `Option` (a `none` map reads as empty but cannot be written);
  the Go runtime panic from writing through a missing `*PackageDefinitions`
  (line 113) and from dereferencing a missing `*AstFileInfo` (lines 218,
  240) is modelled as an explicit error value.  Iteration order of Go maps
  is unspecified; the model fixes insertion order, and theorems either
  quantify over the stored list or do not depend on the order.
-/

set_option maxHeartbeats 1000000

namespace Swag

/-- Lookup in an association list: the model of reading a Go map. -/
def alookup {α β : Type} [DecidableEq α] : List (α × β) → α → Option β
  | [], _ => none
  | (k, v) :: rest, key => if key = k then some v else alookup rest key

/-- Insert into an association list, replacing an existing binding in
place: the model of writing `m[key] = val` on a Go map. -/
def ainsert {α β : Type} [DecidableEq α] : List (α × β) → α → β → List (α × β)
  | [], key, val => [(key, val)]
  | (k, v) :: rest, key, val =>
    if key = k then (key, val) :: rest else (k, v) :: ainsert rest key val

/-- Remove a key from an association list: the model of `delete(m, key)`. -/
def aerase {α β : Type} [DecidableEq α] : List (α × β) → α → List (α × β)
  | [], _ => []
  | (k, v) :: rest, key =>
    if key = k then aerase rest key else (k, v) :: aerase rest key

/-- One import declaration of a file (`*ast.ImportSpec`): an optional
alias (`Name`, which is `"_"` for anonymous and `"."` for dot imports)
and the raw quoted path literal (`Path.Value`). -/
structure ImportSpec where
  name : Option String
  path : String
deriving DecidableEq, Repr

/-- The underlying type expression of a declaration; the code only ever
distinguishes a bare identifier (`*ast.Ident`) from everything else. -/
inductive TypeExpr where
  | ident (s : String)
  | opaqueExpr
deriving DecidableEq, Repr

/-- One `*ast.TypeSpec`: the declared name and the underlying type. -/
structure TypeSpec where
  name : String
  type : TypeExpr
deriving DecidableEq, Repr

/-- One `ast.Spec` inside a `GenDecl`: either a type spec or some other
spec (the code's failed `astSpec.(*ast.TypeSpec)` assertion). -/
inductive AstSpec where
  | typeSpec (ts : TypeSpec)
  | otherSpec
deriving DecidableEq, Repr

/-- One top-level `ast.Decl`: a `GenDecl` carrying whether its token is
`token.TYPE` plus its spec list, or any other declaration shape. -/
inductive AstDecl where
  | genDecl (isTypeTok : Bool) (specs : List AstSpec)
  | otherDecl
deriving DecidableEq, Repr

/-- One parsed `*ast.File`: its package short name (`Name.Name`), its
top-level declarations and its imports. -/
structure AstFile where
  name : String
  decls : List AstDecl
  imports : List ImportSpec
deriving DecidableEq, Repr

/-- `AstFileInfo`: a collected file together with its file path and its
owning package path. -/
structure AstFileInfo where
  file : AstFile
  path : String
  packagePath : String
deriving DecidableEq, Repr

/-- Modelled from the spec: the primitive-type classifier
`IsGolangPrimitiveType` is a consumed capability (its body lives outside
this file); it recognises exactly the built-in Go primitive type names. -/
def IsGolangPrimitiveType : String → Bool
  | "uint" | "int" | "uint8" | "uint16" | "uint32" | "uint64"
  | "int8" | "int16" | "int32" | "int64"
  | "float32" | "float64" | "string" | "bool" | "byte" | "rune" => true
  | _ => false

/-- Modelled from the spec: `TransToValidSchemeType`, the canonical-name
mapping for primitive types (a consumed capability outside this file). -/
def TransToValidSchemeType : String → String
  | "uint" | "int" | "uint8" | "uint16" | "uint32" | "uint64"
  | "int8" | "int16" | "int32" | "int64" | "byte" | "rune" => "integer"
  | "float32" | "float64" => "number"
  | "bool" => "boolean"
  | other => other

/-- Modelled from the spec: the canonical primitive representation
produced by `PrimitiveSchema`; only its identity matters here. -/
def PrimitiveSchema (t : String) : String := t

/-- Modelled from the spec: `fullTypeName` (declared outside this file)
builds the ambiguous key (package short name, type name) as the string
`pkgName.typeName`. -/
def fullTypeName (pkgName typeName : String) : String :=
  pkgName ++ "." ++ typeName

/-- `TypeSpecDef`: one named type declaration — owning package path,
back-reference to its declaring file, and the type spec itself. -/
structure TypeSpecDef where
  pkgPath : String
  file : AstFile
  typeSpec : TypeSpec
deriving DecidableEq, Repr

/-- Modelled from the spec: `TypeSpecDef.Name` (declared outside this
file) is the bare declared type name. -/
def TypeSpecDef.Name (t : TypeSpecDef) : String := t.typeSpec.name

/-- Modelled from the spec: `TypeSpecDef.FullName` (declared outside this
file) is `fullTypeName` of the declaring file's package short name and
the declared type name. -/
def TypeSpecDef.FullName (t : TypeSpecDef) : String :=
  fullTypeName t.file.name t.typeSpec.name

/-- The `Schema` value built for a primitive alias (only the fields
`ParseTypes` fills are modelled). -/
structure Schema where
  pkgPath : String
  name : String
  schema : String
deriving DecidableEq, Repr

/-- `PackageDefinitions`: one package path's record — short name, member
files, and the map of locally declared type name to definition. -/
structure PackageDefinitions where
  name : String
  files : List (String × AstFile)
  typeDefinitions : List (String × TypeSpecDef)
deriving DecidableEq, Repr

/-- `PackagesDefinitions`: the whole registry.  Each field is `none` when
the corresponding Go map is `nil` (the zero value of the struct). -/
structure PackagesDefinitions where
  files : Option (List (AstFile × AstFileInfo))
  packages : Option (List (String × PackageDefinitions))
  uniqueDefinitions : Option (List (String × TypeSpecDef))
deriving DecidableEq, Repr

/-- `NewPackagesDefinitions`: all three maps allocated empty. -/
def NewPackagesDefinitions : PackagesDefinitions :=
  { files := some [], packages := some [], uniqueDefinitions := some [] }

/-- The Go zero value `PackagesDefinitions{}`: all three maps `nil`. -/
def zeroPackagesDefinitions : PackagesDefinitions :=
  { files := none, packages := none, uniqueDefinitions := none }

/-- `CollectAstFile`: record the file (allocating the files map if nil);
if the package dir is empty stop there; otherwise add the file to the
existing `PackageDefinitions` for that dir, or create the record with the
short name taken from this first file. -/
def CollectAstFile (pkgs : PackagesDefinitions) (packageDir path : String)
    (astFile : AstFile) : PackagesDefinitions :=
  let fs := pkgs.files.getD []
  let pkgs := { pkgs with
    files := some (ainsert fs astFile ⟨astFile, path, packageDir⟩) }
  if packageDir = "" then
    pkgs
  else
    let ps := pkgs.packages.getD []
    match alookup ps packageDir with
    | some pd =>
      { pkgs with packages := some (ainsert ps packageDir
          { pd with files := ainsert pd.files path astFile }) }
    | none =>
      { pkgs with packages := some (ainsert ps packageDir
          { name := astFile.name
            files := [(path, astFile)]
            typeDefinitions := [] }) }

/-- One registration call's arguments, for building collections. -/
structure CollectArg where
  packageDir : String
  path : String
  astFile : AstFile
deriving DecidableEq, Repr

/-- Fold `CollectAstFile` over a list of registrations from a start state. -/
def collectFrom : PackagesDefinitions → List CollectArg → PackagesDefinitions
  | init, [] => init
  | init, u :: rest =>
    collectFrom (CollectAstFile init u.packageDir u.path u.astFile) rest

/-- The usual collection: registrations applied to `NewPackagesDefinitions`. -/
def collect (units : List CollectArg) : PackagesDefinitions :=
  collectFrom NewPackagesDefinitions units

/-- How `ParseTypes` can fail: the explicit `errors.New` return when
`uniqueDefinitions` is nil (line 98), or the runtime panic of writing
`pkgs.packages[path].TypeDefinitions[...]` through a missing record
(line 113). -/
inductive HarvestError where
  | configError
  | nilPackageRecord
deriving DecidableEq, Repr

/-- The mutable state threaded through the `ParseTypes` loops. -/
structure HarvestState where
  parsedSchemas : List (TypeSpecDef × Schema)
  uniqueDefinitions : Option (List (String × TypeSpecDef))
  packages : Option (List (String × PackageDefinitions))
deriving DecidableEq, Repr

/-- Line 113: `pkgs.packages[d.PkgPath].TypeDefinitions[d.Name()] = d`.
A nil packages map or a missing record is a nil-pointer write: panic. -/
def writeLocal (st : HarvestState) (d : TypeSpecDef) :
    Except HarvestError HarvestState :=
  match st.packages with
  | none => .error .nilPackageRecord
  | some ps =>
    match alookup ps d.pkgPath with
    | none => .error .nilPackageRecord
    | some pd =>
      .ok { st with packages := some (ainsert ps d.pkgPath
        { pd with typeDefinitions := ainsert pd.typeDefinitions d.Name d }) }

/-- Lines 89-95: when the underlying type is a bare primitive identifier,
add a precomputed schema to the output map (keyed by the definition). -/
def addPrimitiveSchema (typeSpecDef : TypeSpecDef) (st : HarvestState) :
    HarvestState :=
  match typeSpecDef.typeSpec.type with
  | .ident idt =>
    if IsGolangPrimitiveType idt then
      { st with parsedSchemas := st.parsedSchemas ++
          [(typeSpecDef,
            (⟨typeSpecDef.pkgPath, typeSpecDef.file.name,
              PrimitiveSchema (TransToValidSchemeType idt)⟩ : Schema))] }
    else st
  | .opaqueExpr => st

/-- The body of `ParseTypes` for one `*ast.TypeSpec` (lines 83-113):
build the `TypeSpecDef`; if the underlying type is a primitive identifier
record a schema; fail if `uniqueDefinitions` is nil; then the collision
logic on the full name — present with the same package path: `continue`
(which also skips the local write); present with a different path: delete
the key, then write locally; absent: insert, then write locally. -/
def parseTypeSpecStep (typeSpecDef : TypeSpecDef) (st : HarvestState) :
    Except HarvestError HarvestState :=
  let st := addPrimitiveSchema typeSpecDef st
  match st.uniqueDefinitions with
  | none => .error .configError
  | some uniq =>
    match alookup uniq typeSpecDef.FullName with
    | some anotherTypeDef =>
      if typeSpecDef.pkgPath = anotherTypeDef.pkgPath then
        .ok st
      else
        writeLocal
          { st with uniqueDefinitions := some (aerase uniq typeSpecDef.FullName) }
          typeSpecDef
    | none =>
      writeLocal
        { st with uniqueDefinitions := some (ainsert uniq typeSpecDef.FullName typeSpecDef) }
        typeSpecDef

/-- The inner loop over `generalDeclaration.Specs` (lines 81-116). -/
def runSpecs (astFile : AstFile) (packagePath : String) :
    List AstSpec → HarvestState → Except HarvestError HarvestState
  | [], st => .ok st
  | .otherSpec :: rest, st => runSpecs astFile packagePath rest st
  | .typeSpec ts :: rest, st =>
    match parseTypeSpecStep ⟨packagePath, astFile, ts⟩ st with
    | .error e => .error e
    | .ok st' => runSpecs astFile packagePath rest st'

/-- The loop over `astFile.Decls` (lines 72-117): only `GenDecl`s with
token `TYPE` are processed. -/
def runDecls (astFile : AstFile) (packagePath : String) :
    List AstDecl → HarvestState → Except HarvestError HarvestState
  | [], st => .ok st
  | .genDecl true specs :: rest, st =>
    match runSpecs astFile packagePath specs st with
    | .error e => .error e
    | .ok st' => runDecls astFile packagePath rest st'
  | .genDecl false _ :: rest, st => runDecls astFile packagePath rest st
  | .otherDecl :: rest, st => runDecls astFile packagePath rest st

/-- The outer loop over `pkgs.files` (lines 71-118). -/
def runFiles : List (AstFile × AstFileInfo) → HarvestState →
    Except HarvestError HarvestState
  | [], st => .ok st
  | (astFile, info) :: rest, st =>
    match runDecls astFile info.packagePath astFile.decls st with
    | .error e => .error e
    | .ok st' => runFiles rest st'

/-- `ParseTypes` (lines 69-120): walk every collected file's type
declarations, building the primitive-alias schema map and updating the
unique-definitions index and the per-package local maps. -/
def ParseTypes (pkgs : PackagesDefinitions) :
    Except HarvestError (List (TypeSpecDef × Schema) × PackagesDefinitions) :=
  match runFiles (pkgs.files.getD [])
      { parsedSchemas := []
        uniqueDefinitions := pkgs.uniqueDefinitions
        packages := pkgs.packages } with
  | .error e => .error e
  | .ok st =>
    .ok (st.parsedSchemas,
      { pkgs with uniqueDefinitions := st.uniqueDefinitions
                  packages := st.packages })

/-- Reading the (possibly nil) `uniqueDefinitions` map: a nil Go map
reads as empty. -/
def ulookup (pkgs : PackagesDefinitions) (key : String) : Option TypeSpecDef :=
  match pkgs.uniqueDefinitions with
  | none => none
  | some uniq => alookup uniq key

/-- Reading the (possibly nil) `packages` map. -/
def plookup (pkgs : PackagesDefinitions) (key : String) :
    Option PackageDefinitions :=
  match pkgs.packages with
  | none => none
  | some ps => alookup ps key

/-- Reading the (possibly nil) `files` map. -/
def flookup (pkgs : PackagesDefinitions) (f : AstFile) : Option AstFileInfo :=
  match pkgs.files with
  | none => none
  | some fs => alookup fs f

/-- `findTypeSpec` (lines 122-134): the Package-Registry lookup of
(package path, type name); nil packages map or missing record or missing
name all return nil. -/
def findTypeSpec (pkgs : PackagesDefinitions) (pkgPath typeName : String) :
    Option TypeSpecDef :=
  match plookup pkgs pkgPath with
  | some pd => alookup pd.typeDefinitions typeName
  | none => none

/-- `strings.Trim(v, "\"")`: strip leading and trailing quote characters. -/
def trimQuote (s : String) : String :=
  String.mk (((s.data.dropWhile (fun c => c = '"')).reverse.dropWhile
    (fun c => c = '"')).reverse)

/-- Whether a string contains a `.` (`strings.ContainsRune(s, '.')`). -/
def containsDot (s : String) : Bool :=
  s.data.any (fun c => c = '.')

/-- `strings.Split(s, ".")` on character lists. -/
def splitDotAux : List Char → List Char → List String
  | [], acc => [String.mk acc.reverse]
  | c :: rest, acc =>
    if c = '.' then String.mk acc.reverse :: splitDotAux rest []
    else splitDotAux rest (c :: acc)

/-- `strings.Split(s, ".")`. -/
def splitDot (s : String) : List String := splitDotAux s.data []

/-- Lines 145-147: if the qualifier contains a dot, keep only the part
before the first dot. -/
def splitQualifier (pkgName : String) : String :=
  if containsDot pkgName then (splitDot pkgName).getD 0 "" else pkgName

/-- The first loop of `findPackagePathFromImports` (lines 152-167): scan
the imports in order; a named import whose alias equals the qualifier
returns its trimmed path; an alias `"_"` only sets the anonymous flag; an
unnamed one matches when its trimmed path is a registered package whose
short name equals the qualifier.  Returns the matched path (if any) and whether
an anonymous import was seen before the scan stopped. -/
def scanImports (packages : Option (List (String × PackageDefinitions)))
    (pkgName : String) : List ImportSpec → Bool → Option String × Bool
  | [], hasAnon => (none, hasAnon)
  | imp :: rest, hasAnon =>
    match imp.name with
    | some n =>
      if n = pkgName then (some (trimQuote imp.path), hasAnon)
      else if n = "_" then scanImports packages pkgName rest true
      else scanImports packages pkgName rest hasAnon
    | none =>
      match packages with
      | some ps =>
        match alookup ps (trimQuote imp.path) with
        | some pd =>
          if pd.name = pkgName then (some (trimQuote imp.path), hasAnon)
          else scanImports packages pkgName rest hasAnon
        | none => scanImports packages pkgName rest hasAnon
      | none => scanImports packages pkgName rest hasAnon

/-- The second loop of `findPackagePathFromImports` (lines 171-183):
among imports aliased `"_"`, return the first whose trimmed path is a
registered package whose short name equals the qualifier. -/
def scanAnonymous (ps : List (String × PackageDefinitions)) (pkgName : String) :
    List ImportSpec → Option String
  | [] => none
  | imp :: rest =>
    match imp.name with
    | none => scanAnonymous ps pkgName rest
    | some n =>
      if n = "_" then
        match alookup ps (trimQuote imp.path) with
        | some pd =>
          if pd.name = pkgName then some (trimQuote imp.path)
          else scanAnonymous ps pkgName rest
        | none => scanAnonymous ps pkgName rest
      else scanAnonymous ps pkgName rest

/-- `findPackagePathFromImports` (lines 140-194): resolve a qualifier to
a package path from a file's imports; empty string means no match. -/
def findPackagePathFromImports (pkgs : PackagesDefinitions) (pkgName : String)
    (file : Option AstFile) : String :=
  match file with
  | none => ""
  | some f =>
    let q := splitQualifier pkgName
    match scanImports pkgs.packages q f.imports false with
    | (some path, _) => path
    | (none, hasAnon) =>
      match pkgs.packages with
      | some ps =>
        if hasAnon then (scanAnonymous ps q f.imports).getD "" else ""
      | none => ""

/-- `isAliasPkgName` (lines 256-268): whether any import of the file has
an explicit alias equal to the qualifier.  (The function is only ever
called with a non-nil file; the Go nil-branch on line 257 would itself
fault before returning.) -/
def isAliasPkgName (file : AstFile) (pkgName : String) : Bool :=
  file.imports.any (fun imp =>
    match imp.name with
    | some n => n = pkgName
    | none => false)

/-- The final loop of `FindTypeSpec` (lines 244-251): try the registry
under each dot-import's path. -/
def dotImportScan (pkgs : PackagesDefinitions) (typeName : String) :
    List ImportSpec → Option TypeSpecDef
  | [] => none
  | imp :: rest =>
    match imp.name with
    | some n =>
      if n = "." then
        match findTypeSpec pkgs (trimQuote imp.path) typeName with
        | some typeDef => some typeDef
        | none => dotImportScan pkgs typeName rest
      else dotImportScan pkgs typeName rest
    | none => dotImportScan pkgs typeName rest

/-- `FindTypeSpec` (lines 200-254).  `Except Unit` models the nil-pointer
panic of `pkgs.files[file].PackagePath` when the file was never collected
(lines 218 and 240); `.ok none` is a normal "not found". -/
def FindTypeSpec (pkgs : PackagesDefinitions) (typeName : String)
    (file : Option AstFile) : Except Unit (Option TypeSpecDef) :=
  if IsGolangPrimitiveType typeName then .ok none
  else
    match file with
    | none => .ok (ulookup pkgs typeName)
    | some f =>
      if containsDot typeName then
        let part0 := (splitDot typeName).getD 0 ""
        let part1 := (splitDot typeName).getD 1 ""
        match
          (if !isAliasPkgName f part0 then ulookup pkgs typeName else none) with
        | some typeDef => .ok (some typeDef)
        | none =>
          match
            ((if findPackagePathFromImports pkgs part0 (some f) = "" ∧
                part0 = f.name then
              match flookup pkgs f with
              | none => .error ()
              | some info => .ok info.packagePath
            else
              .ok (findPackagePathFromImports pkgs part0 (some f))) :
              Except Unit String) with
          | .error e => .error e
          | .ok pkgPath =>
            if pkgPath = "" then
              match plookup pkgs ("pkg/" ++ part0) with
              | none => .ok (findTypeSpec pkgs pkgPath part1)
              | some pkgDefinition =>
                match alookup pkgDefinition.typeDefinitions part1 with
                | some typeDef => .ok (some typeDef)
                | none => .ok (findTypeSpec pkgs pkgPath part1)
            else .ok (findTypeSpec pkgs pkgPath part1)
      else
        match ulookup pkgs (fullTypeName f.name typeName) with
        | some typeDef => .ok (some typeDef)
        | none =>
          match flookup pkgs f with
          | none => .error ()
          | some info =>
            match findTypeSpec pkgs info.packagePath typeName with
            | some typeDef => .ok (some typeDef)
            | none => .ok (dotImportScan pkgs typeName f.imports)

/-! Auxiliary definitions used by the verification layer. -/

/-- Anonymous import: one whose explicit alias is the blank identifier. -/
def isAnonImport (imp : ImportSpec) : Bool :=
  match imp.name with
  | some n => n = "_"
  | none => false

/-- Whether one import matches a qualifier in the first scan of
`findPackagePathFromImports`: a named import matches when its alias
equals the qualifier, an unnamed one when its trimmed path is registered
under a record whose short name equals the qualifier.  Returns the path
the scan would yield. -/
def impMatch (packages : Option (List (String × PackageDefinitions)))
    (q : String) (imp : ImportSpec) : Option String :=
  match imp.name with
  | some n => if n = q then some (trimQuote imp.path) else none
  | none =>
    match packages with
    | some ps =>
      match alookup ps (trimQuote imp.path) with
      | some pd => if pd.name = q then some (trimQuote imp.path) else none
      | none => none
    | none => none

/-- Whether one import matches a qualifier in the anonymous rescan. -/
def anonMatch (ps : List (String × PackageDefinitions)) (q : String)
    (imp : ImportSpec) : Option String :=
  match imp.name with
  | some n =>
    if n = "_" then
      match alookup ps (trimQuote imp.path) with
      | some pd => if pd.name = q then some (trimQuote imp.path) else none
      | none => none
    else none
  | none => none

/-- The `TypeSpecDef`s the harvest builds from one spec list, in order. -/
def specDefs (astFile : AstFile) (packagePath : String) :
    List AstSpec → List TypeSpecDef
  | [] => []
  | .typeSpec ts :: rest =>
    ⟨packagePath, astFile, ts⟩ :: specDefs astFile packagePath rest
  | .otherSpec :: rest => specDefs astFile packagePath rest

/-- The `TypeSpecDef`s the harvest builds from one declaration list. -/
def declDefs (astFile : AstFile) (packagePath : String) :
    List AstDecl → List TypeSpecDef
  | [] => []
  | .genDecl true specs :: rest =>
    specDefs astFile packagePath specs ++ declDefs astFile packagePath rest
  | .genDecl false _ :: rest => declDefs astFile packagePath rest
  | .otherDecl :: rest => declDefs astFile packagePath rest

/-- All `TypeSpecDef`s the harvest builds from the collected files, in
processing order. -/
def allTypeDefs : List (AstFile × AstFileInfo) → List TypeSpecDef
  | [] => []
  | (f, i) :: rest => declDefs f i.packagePath f.decls ++ allTypeDefs rest

/-- The harvest pass as a fold of `parseTypeSpecStep` over the flattened
declaration list; `runFiles` computes exactly this. -/
def runSteps : List TypeSpecDef → HarvestState → Except HarvestError HarvestState
  | [], st => .ok st
  | d :: rest, st =>
    match parseTypeSpecStep d st with
    | .error e => .error e
    | .ok st' => runSteps rest st'

/-- Registry lookup inside a harvest state. -/
def hplookup (st : HarvestState) (k : String) : Option PackageDefinitions :=
  match st.packages with
  | none => none
  | some ps => alookup ps k

/-- A package path has a record in the harvest state's registry. -/
def pkgKeyPresent (st : HarvestState) (k : String) : Prop :=
  ∃ pd, hplookup st k = some pd

/-- Non-conflicting input: no two harvested definitions share a full name
while living at different package paths. -/
def nonConf (L : List TypeSpecDef) : Prop :=
  ∀ d1 ∈ L, ∀ d2 ∈ L, d1.FullName = d2.FullName → d1.pkgPath = d2.pkgPath

/-- Every index entry agrees, on package path, with every definition of
the input list that has the entry's key. -/
def agreesWith (L : List TypeSpecDef) (uniq : List (String × TypeSpecDef)) :
    Prop :=
  ∀ k e, alookup uniq k = some e → ∀ d ∈ L, d.FullName = k → d.pkgPath = e.pkgPath

/-- Every listed definition's key is in the index, owned by its path. -/
def coveredBy (L : List TypeSpecDef) (uniq : List (String × TypeSpecDef)) :
    Prop :=
  ∀ d ∈ L, ∃ e, alookup uniq d.FullName = some e ∧ e.pkgPath = d.pkgPath

/-! Concrete collections used by the example-level theorems.  Distinct Go
files are distinct pointers; structurally distinct `AstFile` values model
that. -/

/-- A `type User` declaration with a non-primitive underlying type. -/
def tsUser : TypeSpec := ⟨"User", .opaqueExpr⟩

/-- First "models" package's file, declaring `User`. -/
def fileA : AstFile := ⟨"models", [.genDecl true [.typeSpec tsUser]], []⟩

/-- Second "models" package's file, declaring `User`. -/
def fileB : AstFile :=
  ⟨"models", [.otherDecl, .genDecl true [.typeSpec tsUser]], []⟩

/-- A context file importing the first models package, unaliased. -/
def ctxA : AstFile := ⟨"handlers", [], [⟨none, "\"path/a/models\""⟩]⟩

/-- A context file importing the second models package, unaliased. -/
def ctxB : AstFile := ⟨"handlers", [], [⟨none, "\"path/b/models\""⟩]⟩

/-- Two same-short-name packages plus the two context units. -/
def unitsC2 : List CollectArg :=
  [⟨"path/a/models", "a/user.go", fileA⟩,
   ⟨"path/b/models", "b/user.go", fileB⟩,
   ⟨"app/ha", "ha/h.go", ctxA⟩,
   ⟨"app/hb", "hb/h.go", ctxB⟩]

/-- The registry after harvesting `unitsC2`. -/
def pkgsC2 : PackagesDefinitions :=
  match ParseTypes (collect unitsC2) with
  | .ok r => r.2
  | .error _ => zeroPackagesDefinitions

/-- The `User` definition owned by the first models package. -/
def defA : TypeSpecDef := ⟨"path/a/models", fileA, tsUser⟩

/-- The `User` definition owned by the second models package. -/
def defB : TypeSpecDef := ⟨"path/b/models", fileB, tsUser⟩

/-- A file declaring `T` twice (parseable though ill-typed Go), with
distinguishable underlying types. -/
def fileC3 : AstFile :=
  ⟨"m", [.genDecl true [.typeSpec ⟨"T", .ident "foo"⟩,
                        .typeSpec ⟨"T", .ident "bar"⟩]], []⟩

/-- One package containing `fileC3`. -/
def unitsC3 : List CollectArg := [⟨"app/p", "p/t.go", fileC3⟩]

/-- The registry after harvesting `unitsC3`. -/
def pkgsC3 : PackagesDefinitions :=
  match ParseTypes (collect unitsC3) with
  | .ok r => r.2
  | .error _ => zeroPackagesDefinitions

/-- The first `T` declaration's definition. -/
def defT1 : TypeSpecDef := ⟨"app/p", fileC3, ⟨"T", .ident "foo"⟩⟩

/-- The second `T` declaration's definition. -/
def defT2 : TypeSpecDef := ⟨"app/p", fileC3, ⟨"T", .ident "bar"⟩⟩

/-- A package-declaring file with short name "models" and no decls. -/
def fileModels : AstFile := ⟨"models", [], []⟩

/-- A registry with the single package `x/models` (short name "models"). -/
def pkgsC4 : PackagesDefinitions :=
  collect [⟨"x/models", "xm/m.go", fileModels⟩]

/-- A context whose import list has an unnamed import of the registered
`x/models` before a named import aliased "models" of `y/other`. -/
def ctxC4 : AstFile :=
  ⟨"app", [], [⟨none, "\"x/models\""⟩, ⟨some "models", "\"y/other\""⟩]⟩

/-- A context whose only import is an anonymous import of `x/models`. -/
def ctxC4anon : AstFile := ⟨"app", [], [⟨some "_", "\"x/models\""⟩]⟩

/-- A context with no imports, used for the empty-path resolution case. -/
def ctxC6 : AstFile := ⟨"app", [], []⟩

/-- A collection registering only the `ctxC6` unit. -/
def unitsC6 : List CollectArg := [⟨"app/h", "h/h.go", ctxC6⟩]

/-- A file containing no type declaration. -/
def fileC7 : AstFile := ⟨"app", [.otherDecl], []⟩

/-- A collection built on the zero value: `uniqueDefinitions` stays nil. -/
def pkgsC7 : PackagesDefinitions :=
  collectFrom zeroPackagesDefinitions [⟨"app/a", "a/f.go", fileC7⟩]

/-- A file containing one type declaration. -/
def fileC7b : AstFile := ⟨"app", [.genDecl true [.typeSpec ⟨"T", .opaqueExpr⟩]], []⟩

/-- A zero-value-based collection that does contain a type declaration. -/
def pkgsC7b : PackagesDefinitions :=
  collectFrom zeroPackagesDefinitions [⟨"app/a", "a/f.go", fileC7b⟩]

/-- A well-formed single-package collection with one type declaration. -/
def unitsW8 : List CollectArg := [⟨"app/a", "a/f.go", fileC7b⟩]

/-- The harvest output schemas of `unitsW8`'s first run. -/
def schemasW8 : List (TypeSpecDef × Schema) :=
  match ParseTypes (collect unitsW8) with
  | .ok r => r.1
  | .error _ => []

/-- The registry after the first harvest run over `unitsW8`. -/
def pkgsW8 : PackagesDefinitions :=
  match ParseTypes (collect unitsW8) with
  | .ok r => r.2
  | .error _ => zeroPackagesDefinitions

/-- A collection with an empty-path unit that declares a type. -/
def unitsC9 : List CollectArg :=
  [⟨"app/a", "a/f.go", fileC7⟩, ⟨"", "free/f.go", fileC7b⟩]

/-- Witness definition for the per-declaration index theorems. -/
def fileW1 : AstFile := ⟨"m", [.genDecl true [.typeSpec ⟨"T", .opaqueExpr⟩]], []⟩

/-- Witness: a definition of `m.T` at path `p1`. -/
def dW1 : TypeSpecDef := ⟨"p1", fileW1, ⟨"T", .opaqueExpr⟩⟩

/-- Witness: a competing definition of `m.T` at path `p2`. -/
def eW1 : TypeSpecDef := ⟨"p2", fileW1, ⟨"T", .opaqueExpr⟩⟩

/-- Witness harvest state: the index already holds `m.T ↦ eW1` and the
registry has a record for `p1`. -/
def stW1 : HarvestState :=
  { parsedSchemas := []
    uniqueDefinitions := some [("m.T", eW1)]
    packages := some [("p1", ⟨"m", [], []⟩)] }

/-- The state after one step of `parseTypeSpecStep dW1 stW1`. -/
def stW1' : HarvestState :=
  match parseTypeSpecStep dW1 stW1 with
  | .ok s => s
  | .error _ => stW1

/-- Witness harvest state whose index lacks the key `m.T`. -/
def stW3 : HarvestState :=
  { parsedSchemas := []
    uniqueDefinitions := some []
    packages := some [("p1", ⟨"m", [], []⟩)] }

/-- The state after one step of `parseTypeSpecStep dW1 stW3`. -/
def stW3' : HarvestState :=
  match parseTypeSpecStep dW1 stW3 with
  | .ok s => s
  | .error _ => stW3

/-- Witness registry for the shortcut theorem: the index maps the full
reference `models.User` directly to `defA`. -/
def pkgsW5 : PackagesDefinitions :=
  { files := some []
    packages := some []
    uniqueDefinitions := some [("models.User", defA)] }

/-- Witness context for the shortcut theorem: no imports at all, so the
qualifier is not an alias. -/
def ctxW5 : AstFile := ⟨"handlers", [], []⟩

/-- Witness context carrying an alias equal to the qualifier. -/
def ctxW5b : AstFile := ⟨"handlers", [], [⟨some "models", "\"z/elsewhere\""⟩]⟩

/-- A context whose only import is an unnamed import of `x/models`. -/
def ctxC10 : AstFile := ⟨"app", [], [⟨none, "\"x/models\""⟩]⟩

/-- The packages map of `pkgsC4`, as a plain list. -/
def psC4 : List (String × PackageDefinitions) :=
  match pkgsC4.packages with
  | some ps => ps
  | none => []

/-! ### Lemmas: association lists -/

theorem alookup_ainsert_self {α β : Type} [DecidableEq α]
    (m : List (α × β)) (k : α) (v : β) :
    alookup (ainsert m k v) k = some v := by
  induction m with
  | nil => simp [ainsert, alookup]
  | cons hd tl ih =>
    obtain ⟨k', v'⟩ := hd
    by_cases h : k = k'
    · simp [ainsert, alookup, h]
    · simp [ainsert, alookup, h, ih]

theorem alookup_ainsert_ne {α β : Type} [DecidableEq α]
    (m : List (α × β)) (k : α) (v : β) (k' : α) (h : k' ≠ k) :
    alookup (ainsert m k v) k' = alookup m k' := by
  induction m with
  | nil => simp [ainsert, alookup, h]
  | cons hd tl ih =>
    obtain ⟨k0, v0⟩ := hd
    by_cases hk : k = k0
    · subst hk
      simp [ainsert, alookup, h]
    · simp only [ainsert, if_neg hk]
      by_cases hk' : k' = k0
      · simp [alookup, hk']
      · simp [alookup, hk', ih]

theorem alookup_aerase_self {α β : Type} [DecidableEq α]
    (m : List (α × β)) (k : α) :
    alookup (aerase m k) k = none := by
  induction m with
  | nil => simp [aerase, alookup]
  | cons hd tl ih =>
    obtain ⟨k0, v0⟩ := hd
    by_cases hk : k = k0
    · subst hk
      simp [aerase, ih]
    · simp [aerase, alookup, hk, ih]

theorem alookup_aerase_ne {α β : Type} [DecidableEq α]
    (m : List (α × β)) (k : α) (k' : α) (h : k' ≠ k) :
    alookup (aerase m k) k' = alookup m k' := by
  induction m with
  | nil => simp [aerase, alookup]
  | cons hd tl ih =>
    obtain ⟨k0, v0⟩ := hd
    by_cases hk : k = k0
    · subst hk
      simp [aerase, alookup, h, ih]
    · by_cases hk' : k' = k0
      · simp [aerase, alookup, hk, hk']
      · simp [aerase, alookup, hk, hk', ih]

theorem mem_ainsert {α β : Type} [DecidableEq α]
    (m : List (α × β)) (k : α) (v : β) :
    ∀ x ∈ ainsert m k v, x ∈ m ∨ x = (k, v) := by
  induction m with
  | nil =>
    intro x hx
    simp only [ainsert] at hx
    right
    simpa using hx
  | cons hd tl ih =>
    obtain ⟨k0, v0⟩ := hd
    intro x hx
    by_cases hk : k = k0
    · rw [ainsert, if_pos hk] at hx
      rcases List.mem_cons.mp hx with hx1 | hx1
      · right; exact hx1
      · left; exact List.mem_cons_of_mem _ hx1
    · rw [ainsert, if_neg hk] at hx
      rcases List.mem_cons.mp hx with hx1 | hx1
      · left
        rw [hx1]
        exact List.mem_cons_self _ _
      · rcases ih x hx1 with h1 | h1
        · left; exact List.mem_cons_of_mem _ h1
        · right; exact h1

theorem alookup_mem {α β : Type} [DecidableEq α]
    (m : List (α × β)) (k : α) (v : β) (h : alookup m k = some v) :
    (k, v) ∈ m := by
  induction m with
  | nil => simp [alookup] at h
  | cons hd tl ih =>
    obtain ⟨k0, v0⟩ := hd
    by_cases hk : k = k0
    · subst hk
      simp [alookup] at h
      simp [h]
    · simp only [alookup, if_neg hk] at h
      simp [ih h]

/-! ### Lemmas: shapes of the harvest step -/

theorem addPrimitiveSchema_unique (d : TypeSpecDef) (st : HarvestState) :
    (addPrimitiveSchema d st).uniqueDefinitions = st.uniqueDefinitions := by
  unfold addPrimitiveSchema
  split
  · split <;> rfl
  · rfl

theorem addPrimitiveSchema_packages (d : TypeSpecDef) (st : HarvestState) :
    (addPrimitiveSchema d st).packages = st.packages := by
  unfold addPrimitiveSchema
  split
  · split <;> rfl
  · rfl

theorem writeLocal_ok (st : HarvestState) (d : TypeSpecDef)
    (ps : List (String × PackageDefinitions)) (pd : PackageDefinitions)
    (hp : st.packages = some ps) (hl : alookup ps d.pkgPath = some pd) :
    writeLocal st d = .ok { st with packages := some (ainsert ps d.pkgPath
      { pd with typeDefinitions := ainsert pd.typeDefinitions d.Name d }) } := by
  unfold writeLocal
  rw [hp]
  simp only [hl]

theorem writeLocal_error (st : HarvestState) (d : TypeSpecDef)
    (h : ¬ pkgKeyPresent st d.pkgPath) :
    writeLocal st d = .error .nilPackageRecord := by
  unfold writeLocal
  cases hp : st.packages with
  | none => rfl
  | some ps =>
    cases hl : alookup ps d.pkgPath with
    | none => simp only [hl]
    | some pd =>
      refine absurd ⟨pd, ?_⟩ h
      unfold hplookup
      rw [hp]
      exact hl

theorem pkgKeyPresent_congr (st1 st2 : HarvestState)
    (h : st1.packages = st2.packages) (k : String) :
    pkgKeyPresent st1 k ↔ pkgKeyPresent st2 k := by
  unfold pkgKeyPresent hplookup
  rw [h]

theorem writeLocal_unique (st : HarvestState) (d : TypeSpecDef)
    (st' : HarvestState) (h : writeLocal st d = .ok st') :
    st'.uniqueDefinitions = st.uniqueDefinitions := by
  unfold writeLocal at h
  cases hp : st.packages with
  | none => rw [hp] at h; cases h
  | some ps =>
    rw [hp] at h
    cases hl : alookup ps d.pkgPath with
    | none => simp only [hl] at h; cases h
    | some pd =>
      simp only [hl] at h
      cases h
      rfl

theorem writeLocal_ok_shape (st : HarvestState) (d : TypeSpecDef)
    (st' : HarvestState) (h : writeLocal st d = .ok st') :
    ∃ ps pd, st.packages = some ps ∧ alookup ps d.pkgPath = some pd ∧
      st' = { st with packages := some (ainsert ps d.pkgPath
        { pd with typeDefinitions := ainsert pd.typeDefinitions d.Name d }) } := by
  unfold writeLocal at h
  cases hp : st.packages with
  | none => rw [hp] at h; cases h
  | some ps =>
    rw [hp] at h
    cases hl : alookup ps d.pkgPath with
    | none => simp only [hl] at h; cases h
    | some pd =>
      simp only [hl] at h
      cases h
      exact ⟨ps, pd, rfl, hl, rfl⟩

theorem writeLocal_present_iff (st : HarvestState) (d : TypeSpecDef)
    (st' : HarvestState) (h : writeLocal st d = .ok st') (k : String) :
    pkgKeyPresent st' k ↔ pkgKeyPresent st k := by
  obtain ⟨ps, pd, hp, hl, rfl⟩ := writeLocal_ok_shape st d st' h
  unfold pkgKeyPresent hplookup
  rw [hp]
  show (∃ pd', alookup (ainsert ps d.pkgPath _) k = some pd') ↔ _
  by_cases hk : k = d.pkgPath
  · subst hk
    rw [alookup_ainsert_self]
    simp only [hl]
    constructor
    · intro _; exact ⟨pd, rfl⟩
    · intro _; exact ⟨_, rfl⟩
  · rw [alookup_ainsert_ne _ _ _ _ hk]

theorem writeLocal_local_map (st : HarvestState) (d : TypeSpecDef)
    (st' : HarvestState) (h : writeLocal st d = .ok st') :
    ∃ pd', hplookup st' d.pkgPath = some pd' ∧
      alookup pd'.typeDefinitions d.Name = some d := by
  obtain ⟨ps, pd, hp, hl, rfl⟩ := writeLocal_ok_shape st d st' h
  refine ⟨{ pd with typeDefinitions := ainsert pd.typeDefinitions d.Name d },
    ?_, alookup_ainsert_self _ _ _⟩
  show alookup (ainsert ps d.pkgPath _) d.pkgPath = _
  exact alookup_ainsert_self _ _ _

theorem parseTypeSpecStep_eq_skip (d : TypeSpecDef) (st : HarvestState)
    (uniq : List (String × TypeSpecDef)) (e : TypeSpecDef)
    (hu : st.uniqueDefinitions = some uniq)
    (hl : alookup uniq d.FullName = some e)
    (hpath : d.pkgPath = e.pkgPath) :
    parseTypeSpecStep d st = .ok (addPrimitiveSchema d st) := by
  simp only [parseTypeSpecStep]
  rw [addPrimitiveSchema_unique d st, hu]
  simp only [hl, if_pos hpath]

theorem parseTypeSpecStep_eq_delete (d : TypeSpecDef) (st : HarvestState)
    (uniq : List (String × TypeSpecDef)) (e : TypeSpecDef)
    (hu : st.uniqueDefinitions = some uniq)
    (hl : alookup uniq d.FullName = some e)
    (hpath : d.pkgPath ≠ e.pkgPath) :
    parseTypeSpecStep d st =
      writeLocal { addPrimitiveSchema d st with
        uniqueDefinitions := some (aerase uniq d.FullName) } d := by
  simp only [parseTypeSpecStep]
  rw [addPrimitiveSchema_unique d st, hu]
  simp only [hl, if_neg hpath]

theorem parseTypeSpecStep_eq_insert (d : TypeSpecDef) (st : HarvestState)
    (uniq : List (String × TypeSpecDef))
    (hu : st.uniqueDefinitions = some uniq)
    (hl : alookup uniq d.FullName = none) :
    parseTypeSpecStep d st =
      writeLocal { addPrimitiveSchema d st with
        uniqueDefinitions := some (ainsert uniq d.FullName d) } d := by
  simp only [parseTypeSpecStep]
  rw [addPrimitiveSchema_unique d st, hu]
  simp only [hl]

theorem parseTypeSpecStep_eq_config (d : TypeSpecDef) (st : HarvestState)
    (hu : st.uniqueDefinitions = none) :
    parseTypeSpecStep d st = .error .configError := by
  simp only [parseTypeSpecStep]
  rw [addPrimitiveSchema_unique d st, hu]

/-! ### Lemmas: the harvest loops flatten to `runSteps` -/

theorem runSteps_append (l1 l2 : List TypeSpecDef) (st : HarvestState) :
    runSteps (l1 ++ l2) st =
      match runSteps l1 st with
      | .error e => .error e
      | .ok st' => runSteps l2 st' := by
  induction l1 generalizing st with
  | nil => rfl
  | cons d rest ih =>
    simp only [List.cons_append, runSteps]
    cases h : parseTypeSpecStep d st with
    | error e => rfl
    | ok st' => exact ih st'

theorem runSpecs_eq (f : AstFile) (p : String) (specs : List AstSpec)
    (st : HarvestState) :
    runSpecs f p specs st = runSteps (specDefs f p specs) st := by
  induction specs generalizing st with
  | nil => rfl
  | cons s rest ih =>
    cases s with
    | otherSpec => rw [runSpecs, specDefs]; exact ih st
    | typeSpec ts =>
      rw [runSpecs, specDefs, runSteps]
      cases h : parseTypeSpecStep ⟨p, f, ts⟩ st with
      | error e => rfl
      | ok st' => exact ih st'

theorem runDecls_eq (f : AstFile) (p : String) (decls : List AstDecl)
    (st : HarvestState) :
    runDecls f p decls st = runSteps (declDefs f p decls) st := by
  induction decls generalizing st with
  | nil => rfl
  | cons dl rest ih =>
    cases dl with
    | otherDecl => rw [runDecls, declDefs]; exact ih st
    | genDecl b specs =>
      cases b with
      | false => rw [runDecls, declDefs]; exact ih st
      | true =>
        rw [runDecls, declDefs, runSteps_append, runSpecs_eq]
        cases h : runSteps (specDefs f p specs) st with
        | error e => rfl
        | ok st' => exact ih st'

theorem runFiles_eq (l : List (AstFile × AstFileInfo)) (st : HarvestState) :
    runFiles l st = runSteps (allTypeDefs l) st := by
  induction l generalizing st with
  | nil => rfl
  | cons fi rest ih =>
    obtain ⟨f, i⟩ := fi
    rw [runFiles, allTypeDefs, runSteps_append, runDecls_eq]
    cases h : runSteps (declDefs f i.packagePath f.decls) st with
    | error e => rfl
    | ok st' => exact ih st'

theorem ParseTypes_eq (pkgs : PackagesDefinitions) :
    ParseTypes pkgs =
      match runSteps (allTypeDefs (pkgs.files.getD []))
          ⟨[], pkgs.uniqueDefinitions, pkgs.packages⟩ with
      | .error e => .error e
      | .ok st => .ok (st.parsedSchemas,
          { pkgs with uniqueDefinitions := st.uniqueDefinitions
                      packages := st.packages }) := by
  unfold ParseTypes
  rw [runFiles_eq]

/-! ### Lemmas: the collection pass -/

theorem CollectAstFile_unique (pkgs : PackagesDefinitions)
    (dir path : String) (f : AstFile) :
    (CollectAstFile pkgs dir path f).uniqueDefinitions =
      pkgs.uniqueDefinitions := by
  simp only [CollectAstFile]
  split
  · rfl
  · split <;> rfl

theorem collectFrom_unique (units : List CollectArg) :
    ∀ init : PackagesDefinitions,
      (collectFrom init units).uniqueDefinitions = init.uniqueDefinitions := by
  induction units with
  | nil => intro init; rfl
  | cons u rest ih =>
    intro init
    rw [collectFrom, ih, CollectAstFile_unique]

theorem CollectAstFile_no_empty_key (pkgs : PackagesDefinitions)
    (dir path : String) (f : AstFile)
    (h : ∀ ps, pkgs.packages = some ps → alookup ps "" = none) :
    ∀ ps, (CollectAstFile pkgs dir path f).packages = some ps →
      alookup ps "" = none := by
  unfold CollectAstFile
  intro ps hps
  by_cases hdir : dir = ""
  · rw [if_pos hdir] at hps
    exact h ps hps
  · rw [if_neg hdir] at hps
    have hne : ("" : String) ≠ dir := fun hc => hdir hc.symm
    cases hp : pkgs.packages with
    | none =>
      simp only [hp, Option.getD_none] at hps
      cases hm : alookup ([] : List (String × PackageDefinitions)) dir with
      | none =>
        rw [hm] at hps
        cases hps
        rw [alookup_ainsert_ne _ _ _ _ hne]
        rfl
      | some pd => cases hm
    | some ps0 =>
      simp only [hp, Option.getD_some] at hps
      cases hm : alookup ps0 dir with
      | none =>
        rw [hm] at hps
        cases hps
        rw [alookup_ainsert_ne _ _ _ _ hne]
        exact h ps0 hp
      | some pd =>
        rw [hm] at hps
        cases hps
        rw [alookup_ainsert_ne _ _ _ _ hne]
        exact h ps0 hp

theorem collectFrom_no_empty_key (units : List CollectArg) :
    ∀ init : PackagesDefinitions,
      (∀ ps, init.packages = some ps → alookup ps "" = none) →
      ∀ ps, (collectFrom init units).packages = some ps →
        alookup ps "" = none := by
  induction units with
  | nil => intro init h; exact h
  | cons u rest ih =>
    intro init h
    exact ih _ (CollectAstFile_no_empty_key init u.packageDir u.path u.astFile h)

theorem collect_no_empty_key (units : List CollectArg) :
    plookup (collect units) "" = none := by
  unfold plookup
  cases hp : (collect units).packages with
  | none => rfl
  | some ps =>
    exact collectFrom_no_empty_key units NewPackagesDefinitions
      (by intro ps0 h0; cases h0; rfl) ps hp

theorem findTypeSpec_empty_of_no_empty_key (pkgs : PackagesDefinitions)
    (h : plookup pkgs "" = none) (n : String) :
    findTypeSpec pkgs "" n = none := by
  unfold findTypeSpec
  rw [h]

theorem parseTypeSpecStep_cases (d : TypeSpecDef) (st : HarvestState)
    (uniq : List (String × TypeSpecDef))
    (hu : st.uniqueDefinitions = some uniq) :
    (∃ st' uniq', parseTypeSpecStep d st = .ok st' ∧
      st'.uniqueDefinitions = some uniq' ∧
      (∀ k e, alookup uniq' k = some e → alookup uniq k = some e ∨ e = d) ∧
      (∀ k, pkgKeyPresent st' k ↔ pkgKeyPresent st k)) ∨
    (parseTypeSpecStep d st = .error .nilPackageRecord ∧
      ¬ pkgKeyPresent st d.pkgPath) := by
  have hpk : ∀ k, pkgKeyPresent (addPrimitiveSchema d st) k ↔ pkgKeyPresent st k :=
    fun k => pkgKeyPresent_congr _ _ (addPrimitiveSchema_packages d st) k
  cases hl : alookup uniq d.FullName with
  | some e =>
    by_cases hp : d.pkgPath = e.pkgPath
    · left
      refine ⟨addPrimitiveSchema d st, uniq,
        parseTypeSpecStep_eq_skip d st uniq e hu hl hp,
        (addPrimitiveSchema_unique d st).trans hu,
        fun k e' h => Or.inl h, hpk⟩
    · rw [parseTypeSpecStep_eq_delete d st uniq e hu hl hp]
      by_cases hpres : pkgKeyPresent st d.pkgPath
      · left
        obtain ⟨pd0, hpd0⟩ := hpres
        unfold hplookup at hpd0
        cases hps : st.packages with
        | none => rw [hps] at hpd0; cases hpd0
        | some ps =>
          rw [hps] at hpd0
          have hw := writeLocal_ok
            { addPrimitiveSchema d st with
              uniqueDefinitions := some (aerase uniq d.FullName) } d ps pd0
            ((addPrimitiveSchema_packages d st).trans hps) hpd0
          refine ⟨_, aerase uniq d.FullName, hw, rfl, ?_, ?_⟩
          · intro k e' h
            by_cases hk : k = d.FullName
            · subst hk
              rw [alookup_aerase_self] at h
              cases h
            · rw [alookup_aerase_ne _ _ _ hk] at h
              exact Or.inl h
          · intro k
            refine (writeLocal_present_iff _ d _ hw k).trans ?_
            exact pkgKeyPresent_congr _ _ (addPrimitiveSchema_packages d st) k
      · right
        refine ⟨writeLocal_error _ d ?_, hpres⟩
        intro hc
        exact hpres ((pkgKeyPresent_congr _ st
          (addPrimitiveSchema_packages d st) d.pkgPath).mp hc)
  | none =>
    rw [parseTypeSpecStep_eq_insert d st uniq hu hl]
    by_cases hpres : pkgKeyPresent st d.pkgPath
    · left
      obtain ⟨pd0, hpd0⟩ := hpres
      unfold hplookup at hpd0
      cases hps : st.packages with
      | none => rw [hps] at hpd0; cases hpd0
      | some ps =>
        rw [hps] at hpd0
        have hw := writeLocal_ok
          { addPrimitiveSchema d st with
            uniqueDefinitions := some (ainsert uniq d.FullName d) } d ps pd0
          ((addPrimitiveSchema_packages d st).trans hps) hpd0
        refine ⟨_, ainsert uniq d.FullName d, hw, rfl, ?_, ?_⟩
        · intro k e' h
          by_cases hk : k = d.FullName
          · subst hk
            rw [alookup_ainsert_self] at h
            cases h
            exact Or.inr rfl
          · rw [alookup_ainsert_ne _ _ _ _ hk] at h
            exact Or.inl h
        · intro k
          refine (writeLocal_present_iff _ d _ hw k).trans ?_
          exact pkgKeyPresent_congr _ _ (addPrimitiveSchema_packages d st) k
    · right
      refine ⟨writeLocal_error _ d ?_, hpres⟩
      intro hc
      exact hpres ((pkgKeyPresent_congr _ st
        (addPrimitiveSchema_packages d st) d.pkgPath).mp hc)

theorem parseTypeSpecStep_error_of_not_present (d : TypeSpecDef)
    (st : HarvestState) (uniq : List (String × TypeSpecDef))
    (hu : st.uniqueDefinitions = some uniq)
    (hnp : ¬ pkgKeyPresent st d.pkgPath)
    (hne : ∀ e, alookup uniq d.FullName = some e → e.pkgPath ≠ d.pkgPath) :
    parseTypeSpecStep d st = .error .nilPackageRecord := by
  have hnp' : ¬ pkgKeyPresent (addPrimitiveSchema d st) d.pkgPath := fun hc =>
    hnp ((pkgKeyPresent_congr _ st (addPrimitiveSchema_packages d st) d.pkgPath).mp hc)
  cases hl : alookup uniq d.FullName with
  | some e =>
    rw [parseTypeSpecStep_eq_delete d st uniq e hu hl (fun hc => hne e hl hc.symm)]
    exact writeLocal_error _ d (fun hc => hnp' hc)
  | none =>
    rw [parseTypeSpecStep_eq_insert d st uniq hu hl]
    exact writeLocal_error _ d (fun hc => hnp' hc)

/-! ### Lemmas: whole-run behaviour of the flattened harvest -/

theorem runSteps_configError (L : List TypeSpecDef) (st : HarvestState)
    (hu : st.uniqueDefinitions = none) (hne : L ≠ []) :
    runSteps L st = .error .configError := by
  cases L with
  | nil => exact absurd rfl hne
  | cons d rest =>
    simp only [runSteps, parseTypeSpecStep_eq_config d st hu]

theorem runSteps_no_configError (L : List TypeSpecDef) :
    ∀ (st : HarvestState) (u : List (String × TypeSpecDef)),
      st.uniqueDefinitions = some u →
      runSteps L st ≠ .error .configError := by
  induction L with
  | nil => intro st u hu h; cases h
  | cons d rest ih =>
    intro st u hu h
    rcases parseTypeSpecStep_cases d st u hu with ⟨st', u', hok, hu', _, _⟩ | ⟨herr, _⟩
    · simp only [runSteps, hok] at h
      exact ih st' u' hu' h
    · simp only [runSteps, herr] at h
      injection h with h2
      cases h2

theorem runSteps_ok_of_present (L : List TypeSpecDef) :
    ∀ (st : HarvestState) (u : List (String × TypeSpecDef)),
      st.uniqueDefinitions = some u →
      (∀ d ∈ L, pkgKeyPresent st d.pkgPath) →
      ∃ st', runSteps L st = .ok st' := by
  induction L with
  | nil => exact fun st u _ _ => ⟨st, rfl⟩
  | cons d rest ih =>
    intro st u hu hpres
    rcases parseTypeSpecStep_cases d st u hu with ⟨st', u', hok, hu', _, hiff⟩ | ⟨herr, hnp⟩
    · obtain ⟨st'', h2⟩ := ih st' u' hu'
        (fun d2 hd2 => (hiff d2.pkgPath).mpr (hpres d2 (List.mem_cons_of_mem _ hd2)))
      refine ⟨st'', ?_⟩
      simp only [runSteps, hok]
      exact h2
    · exact absurd (hpres d (List.mem_cons_self _ _)) hnp

theorem runSteps_error_of_empty_path (L : List TypeSpecDef) :
    ∀ (st : HarvestState) (u : List (String × TypeSpecDef)),
      st.uniqueDefinitions = some u →
      (∀ k e, alookup u k = some e → e.pkgPath ≠ "") →
      ¬ pkgKeyPresent st "" →
      (∀ d ∈ L, d.pkgPath ≠ "" → pkgKeyPresent st d.pkgPath) →
      (∃ d ∈ L, d.pkgPath = "") →
      runSteps L st = .error .nilPackageRecord := by
  induction L with
  | nil =>
    rintro st u _ _ _ _ ⟨d, hd, _⟩
    cases hd
  | cons d0 rest ih =>
    intro st u hu hne hnp hpres hex
    by_cases h0 : d0.pkgPath = ""
    · have herr : parseTypeSpecStep d0 st = .error .nilPackageRecord := by
        apply parseTypeSpecStep_error_of_not_present d0 st u hu
        · rw [h0]; exact hnp
        · intro e hl; rw [h0]; exact hne _ e hl
      simp only [runSteps, herr]
    · rcases parseTypeSpecStep_cases d0 st u hu with
        ⟨st', u', hok, hu', hsub, hiff⟩ | ⟨herr, hnp0⟩
      · have hne' : ∀ k e, alookup u' k = some e → e.pkgPath ≠ "" := by
          intro k e hl
          rcases hsub k e hl with h | h
          · exact hne k e h
          · rw [h]; exact h0
        obtain ⟨d1, hd1, hp1⟩ := hex
        rcases List.mem_cons.mp hd1 with rfl | hd1'
        · exact absurd hp1 h0
        have hrec : runSteps rest st' = .error .nilPackageRecord :=
          ih st' u' hu' hne' (fun hc => hnp ((hiff "").mp hc))
            (fun d2 hd2 hne2 =>
              (hiff d2.pkgPath).mpr (hpres d2 (List.mem_cons_of_mem _ hd2) hne2))
            ⟨d1, hd1', hp1⟩
        simp only [runSteps, hok]
        exact hrec
      · exact absurd (hpres d0 (List.mem_cons_self _ _) h0) hnp0

theorem parseTypeSpecStep_mono (L : List TypeSpecDef) (d : TypeSpecDef)
    (st st' : HarvestState) (uniq : List (String × TypeSpecDef))
    (hnc : nonConf L) (hdL : d ∈ L)
    (hu : st.uniqueDefinitions = some uniq)
    (hag : agreesWith L uniq)
    (hok : parseTypeSpecStep d st = .ok st') :
    ∃ uniq', st'.uniqueDefinitions = some uniq' ∧ agreesWith L uniq' ∧
      (∀ k e, alookup uniq k = some e → alookup uniq' k = some e) ∧
      (∃ e, alookup uniq' d.FullName = some e ∧ e.pkgPath = d.pkgPath) := by
  cases hl : alookup uniq d.FullName with
  | some e =>
    have hpe : d.pkgPath = e.pkgPath := hag d.FullName e hl d hdL rfl
    rw [parseTypeSpecStep_eq_skip d st uniq e hu hl hpe] at hok
    cases hok
    exact ⟨uniq, (addPrimitiveSchema_unique d st).trans hu, hag,
      fun _ _ h => h, e, hl, hpe.symm⟩
  | none =>
    rw [parseTypeSpecStep_eq_insert d st uniq hu hl] at hok
    have huq := writeLocal_unique _ _ _ hok
    refine ⟨ainsert uniq d.FullName d, ?_, ?_, ?_, d, alookup_ainsert_self _ _ _, rfl⟩
    · rw [huq]
    · intro k e hle d2 hd2 hfn
      by_cases hk : k = d.FullName
      · subst hk
        rw [alookup_ainsert_self] at hle
        cases hle
        exact hnc d2 hd2 d hdL hfn
      · rw [alookup_ainsert_ne _ _ _ _ hk] at hle
        exact hag k e hle d2 hd2 hfn
    · intro k e hle
      by_cases hk : k = d.FullName
      · subst hk
        rw [hl] at hle
        cases hle
      · rw [alookup_ainsert_ne _ _ _ _ hk]
        exact hle

theorem runSteps_covered (L : List TypeSpecDef) (hnc : nonConf L)
    (R : List TypeSpecDef) :
    ∀ (st st' : HarvestState) (uniq : List (String × TypeSpecDef)),
      (∀ d ∈ R, d ∈ L) →
      st.uniqueDefinitions = some uniq → agreesWith L uniq →
      runSteps R st = .ok st' →
      ∃ uniq', st'.uniqueDefinitions = some uniq' ∧ agreesWith L uniq' ∧
        (∀ k e, alookup uniq k = some e → alookup uniq' k = some e) ∧
        coveredBy R uniq' := by
  induction R with
  | nil =>
    intro st st' uniq _ hu hag hok
    cases hok
    exact ⟨uniq, hu, hag, fun _ _ h => h, fun d hd => absurd hd (by simp)⟩
  | cons d rest ih =>
    intro st st' uniq hsub hu hag hok
    cases hstep : parseTypeSpecStep d st with
    | error e =>
      simp only [runSteps, hstep] at hok
      cases hok
    | ok st1 =>
      simp only [runSteps, hstep] at hok
      obtain ⟨u1, hu1, hag1, hmono1, hcov1⟩ :=
        parseTypeSpecStep_mono L d st st1 uniq hnc
          (hsub d (List.mem_cons_self _ _)) hu hag hstep
      obtain ⟨uniq', hu', hag', hmono', hcovR⟩ :=
        ih st1 st' u1 (fun d2 hd2 => hsub d2 (List.mem_cons_of_mem _ hd2)) hu1 hag1 hok
      refine ⟨uniq', hu', hag', fun k e h => hmono' k e (hmono1 k e h), ?_⟩
      intro d2 hd2
      rcases List.mem_cons.mp hd2 with rfl | hd2'
      · obtain ⟨e, he, hep⟩ := hcov1
        exact ⟨e, hmono' _ _ he, hep⟩
      · exact hcovR d2 hd2'

theorem runSteps_noop (R : List TypeSpecDef) :
    ∀ (st : HarvestState) (uniq : List (String × TypeSpecDef)),
      st.uniqueDefinitions = some uniq → coveredBy R uniq →
      ∃ st', runSteps R st = .ok st' ∧
        st'.uniqueDefinitions = st.uniqueDefinitions ∧
        st'.packages = st.packages := by
  induction R with
  | nil => exact fun st uniq hu _ => ⟨st, rfl, rfl, rfl⟩
  | cons d rest ih =>
    intro st uniq hu hcov
    obtain ⟨e, he, hep⟩ := hcov d (List.mem_cons_self _ _)
    have hstep := parseTypeSpecStep_eq_skip d st uniq e hu he hep.symm
    obtain ⟨st', h1, h2, h3⟩ := ih (addPrimitiveSchema d st) uniq
      ((addPrimitiveSchema_unique d st).trans hu)
      (fun d2 hd2 => hcov d2 (List.mem_cons_of_mem _ hd2))
    refine ⟨st', ?_, h2.trans (addPrimitiveSchema_unique d st), ?_⟩
    · simp only [runSteps, hstep]
      exact h1
    · exact h3.trans (addPrimitiveSchema_packages d st)

/-! ### Lemmas: paths of harvested definitions, and registration -/

theorem specDefs_path (f : AstFile) (p : String) (specs : List AstSpec) :
    ∀ d ∈ specDefs f p specs, d.pkgPath = p := by
  induction specs with
  | nil => intro d hd; cases hd
  | cons s rest ih =>
    cases s with
    | otherSpec => exact ih
    | typeSpec ts =>
      intro d hd
      rcases List.mem_cons.mp hd with rfl | hd'
      · rfl
      · exact ih d hd'

theorem declDefs_path (f : AstFile) (p : String) (decls : List AstDecl) :
    ∀ d ∈ declDefs f p decls, d.pkgPath = p := by
  induction decls with
  | nil => intro d hd; cases hd
  | cons dl rest ih =>
    cases dl with
    | otherDecl => exact ih
    | genDecl b specs =>
      cases b with
      | false => exact ih
      | true =>
        intro d hd
        rcases List.mem_append.mp hd with h | h
        · exact specDefs_path f p specs d h
        · exact ih d h

theorem allTypeDefs_path (l : List (AstFile × AstFileInfo)) :
    ∀ d ∈ allTypeDefs l, ∃ fi ∈ l, d.pkgPath = fi.2.packagePath := by
  induction l with
  | nil => intro d hd; cases hd
  | cons fi rest ih =>
    intro d hd
    rw [allTypeDefs] at hd
    rcases List.mem_append.mp hd with h | h
    · exact ⟨fi, List.mem_cons_self _ _, declDefs_path fi.1 fi.2.packagePath fi.1.decls d h⟩
    · obtain ⟨fi', h1, h2⟩ := ih d h
      exact ⟨fi', List.mem_cons_of_mem _ h1, h2⟩

theorem CollectAstFile_registered (pkgs : PackagesDefinitions)
    (dir path : String) (f : AstFile)
    (h : ∀ fi ∈ pkgs.files.getD [], fi.2.packagePath = "" ∨
      ∃ ps pd, pkgs.packages = some ps ∧ alookup ps fi.2.packagePath = some pd) :
    ∀ fi ∈ (CollectAstFile pkgs dir path f).files.getD [],
      fi.2.packagePath = "" ∨
      ∃ ps pd, (CollectAstFile pkgs dir path f).packages = some ps ∧
        alookup ps fi.2.packagePath = some pd := by
  intro fi hfi
  simp only [CollectAstFile] at hfi ⊢
  by_cases hdir : dir = ""
  · rw [if_pos hdir] at hfi ⊢
    have hfi' : fi ∈ ainsert (pkgs.files.getD []) f ⟨f, path, dir⟩ := hfi
    rcases mem_ainsert _ _ _ fi hfi' with hold | hnew
    · exact h fi hold
    · left
      rw [hnew, hdir]
  · rw [if_neg hdir] at hfi ⊢
    have hfi' : fi ∈ ainsert (pkgs.files.getD []) f ⟨f, path, dir⟩ := by
      rcases hm : alookup (pkgs.packages.getD []) dir with _ | pd <;>
        · rw [hm] at hfi
          exact hfi
    have hmain : ∀ ps0 v, pkgs.packages.getD [] = ps0 →
        fi.2.packagePath = "" ∨
        ∃ ps pd, some (ainsert ps0 dir v) = some ps ∧
          alookup ps fi.2.packagePath = some pd := by
      intro ps0 v hps0
      rcases mem_ainsert _ _ _ fi hfi' with hold | hnew
      · rcases h fi hold with h1 | ⟨ps, pd, hps, hl⟩
        · exact Or.inl h1
        · right
          refine ⟨ainsert ps0 dir v, ?_⟩
          have hps0' : ps0 = ps := by
            rw [← hps0, hps]
            rfl
          subst hps0'
          by_cases hk : fi.2.packagePath = dir
          · exact ⟨v, rfl, by rw [hk, alookup_ainsert_self]⟩
          · exact ⟨pd, rfl, by rw [alookup_ainsert_ne _ _ _ _ hk]; exact hl⟩
      · right
        refine ⟨ainsert ps0 dir v, v, rfl, ?_⟩
        rw [hnew]
        show alookup (ainsert ps0 dir v) dir = some v
        rw [alookup_ainsert_self]
    rcases hm : alookup (pkgs.packages.getD []) dir with _ | pd
    · exact hmain _ _ rfl
    · exact hmain _ _ rfl

theorem collectFrom_registered (units : List CollectArg) :
    ∀ init : PackagesDefinitions,
      (∀ fi ∈ init.files.getD [], fi.2.packagePath = "" ∨
        ∃ ps pd, init.packages = some ps ∧ alookup ps fi.2.packagePath = some pd) →
      ∀ fi ∈ (collectFrom init units).files.getD [],
        fi.2.packagePath = "" ∨
        ∃ ps pd, (collectFrom init units).packages = some ps ∧
          alookup ps fi.2.packagePath = some pd := by
  induction units with
  | nil => intro init h; exact h
  | cons u rest ih =>
    intro init h
    exact ih _ (CollectAstFile_registered init u.packageDir u.path u.astFile h)

theorem collect_registered (units : List CollectArg) :
    ∀ fi ∈ (collect units).files.getD [],
      fi.2.packagePath = "" ∨
      ∃ ps pd, (collect units).packages = some ps ∧
        alookup ps fi.2.packagePath = some pd := by
  apply collectFrom_registered
  intro fi hfi
  cases hfi

/-! ### Claim theorems -/

/-- C1: during harvest, when the Global Ambiguous-Name Index already holds
the key of the declaration being processed, a same-owning-path entry is
left untouched, and a different-owning-path entry causes the key to be
deleted from the index, so no definition is reachable under that key
afterwards. -/
theorem uniqueDefinitions_collision_safe
    (d : TypeSpecDef) (st st' : HarvestState)
    (uniq : List (String × TypeSpecDef)) (e : TypeSpecDef)
    (hu : st.uniqueDefinitions = some uniq)
    (hl : alookup uniq d.FullName = some e)
    (hok : parseTypeSpecStep d st = .ok st') :
    (e.pkgPath = d.pkgPath → st'.uniqueDefinitions = some uniq) ∧
    (e.pkgPath ≠ d.pkgPath →
      ∃ uniq', st'.uniqueDefinitions = some uniq' ∧
        alookup uniq' d.FullName = none) := by
  constructor
  · intro hsame
    rw [parseTypeSpecStep_eq_skip d st uniq e hu hl hsame.symm] at hok
    cases hok
    exact (addPrimitiveSchema_unique d st).trans hu
  · intro hdiff
    rw [parseTypeSpecStep_eq_delete d st uniq e hu hl (fun hc => hdiff hc.symm)] at hok
    have huq := writeLocal_unique _ _ _ hok
    exact ⟨aerase uniq d.FullName, huq, alookup_aerase_self _ _⟩

/-- Witness for C1 at a concrete collision: the competing entry `eW1` owns
a different path, so after the step the key resolves to nothing. -/
theorem uniqueDefinitions_collision_safe_witness :
    ∃ uniq', stW1'.uniqueDefinitions = some uniq' ∧
      alookup uniq' dW1.FullName = none :=
  (uniqueDefinitions_collision_safe dW1 stW1 stW1' [("m.T", eW1)] eW1
    rfl (by decide) (by rfl)).2 (by decide)

/-- C3 counterexample: a same-key same-path repeat is `continue`d, which
skips the unconditional local write the claim asserts; the local map keeps
the first definition, not the last-processed one. -/
theorem parseTypes_same_path_skips_local_write :
    ParseTypes (collect unitsC3) = .ok ([], pkgsC3) ∧
    findTypeSpec pkgsC3 "app/p" "T" = some defT1 ∧
    defT1 ≠ defT2 :=
  ⟨by rfl, by rfl, by decide⟩

/-- C3 amended: the built TypeDefinition is written into its owning
PackageRecord's local map under the bare declared name whenever the index
lookup finds no entry or an entry with a different owning package path;
when it finds an entry with the same key and the same owning package path
the declaration is skipped and the local map is left untouched. -/
theorem parseTypeSpecStep_local_write
    (d : TypeSpecDef) (st st' : HarvestState)
    (uniq : List (String × TypeSpecDef))
    (hu : st.uniqueDefinitions = some uniq)
    (hok : parseTypeSpecStep d st = .ok st') :
    ((∀ e, alookup uniq d.FullName = some e → e.pkgPath ≠ d.pkgPath) →
      ∃ pd', hplookup st' d.pkgPath = some pd' ∧
        alookup pd'.typeDefinitions d.Name = some d) ∧
    (∀ e, alookup uniq d.FullName = some e → e.pkgPath = d.pkgPath →
      st'.packages = st.packages) := by
  constructor
  · intro hne
    cases hl : alookup uniq d.FullName with
    | some e =>
      rw [parseTypeSpecStep_eq_delete d st uniq e hu hl
        (fun hc => hne e hl hc.symm)] at hok
      exact writeLocal_local_map _ d _ hok
    | none =>
      rw [parseTypeSpecStep_eq_insert d st uniq hu hl] at hok
      exact writeLocal_local_map _ d _ hok
  · intro e hl hsame
    rw [parseTypeSpecStep_eq_skip d st uniq e hu hl hsame.symm] at hok
    cases hok
    exact addPrimitiveSchema_packages d st

/-- Witness for the amended C3: with the key absent from the index, the
step writes the definition into its package's local map. -/
theorem parseTypeSpecStep_local_write_witness :
    ∃ pd', hplookup stW3' dW1.pkgPath = some pd' ∧
      alookup pd'.typeDefinitions dW1.Name = some dW1 :=
  (parseTypeSpecStep_local_write dW1 stW3 stW3' [] rfl (by rfl)).1
    (by intro e hl; cases hl)

/-- C2: with two packages of identical short name "models" both declaring
`User`, harvest leaves no Global Index entry for `models.User`, yet the
resolver returns each context's own package-local definition through its
unaliased import. -/
theorem resolve_same_short_name_by_context :
    ParseTypes (collect unitsC2) = .ok ([], pkgsC2) ∧
    ulookup pkgsC2 "models.User" = none ∧
    FindTypeSpec pkgsC2 "models.User" (some ctxA) = .ok (some defA) ∧
    FindTypeSpec pkgsC2 "models.User" (some ctxB) = .ok (some defB) ∧
    defA.pkgPath = "path/a/models" ∧ defB.pkgPath = "path/b/models" :=
  ⟨by rfl, by decide, by rfl, by rfl, rfl, rfl⟩

theorem hplookup_init (pkgs : PackagesDefinitions)
    (s : List (TypeSpecDef × Schema)) (k : String) :
    hplookup ⟨s, pkgs.uniqueDefinitions, pkgs.packages⟩ k = plookup pkgs k := rfl

/-- C7 counterexample: with the Global Index uninitialized (nil) and a
collection whose only unit has no type declaration, harvest returns
normally instead of failing with the configuration error. -/
theorem ParseTypes_nil_index_returns_normally :
    pkgsC7.uniqueDefinitions = none ∧
    ParseTypes pkgsC7 = .ok ([], pkgsC7) :=
  ⟨rfl, by rfl⟩

/-- C7 amended: if the Global Index is nil when harvest reaches a type
declaration, harvest fails with the fatal configuration error (with no
type declarations it returns normally even with a nil index); with an
initialized index the configuration error never occurs — though harvest
can still fail through the missing-PackageRecord partiality. -/
theorem ParseTypes_configError_characterization (pkgs : PackagesDefinitions) :
    (pkgs.uniqueDefinitions = none →
      allTypeDefs (pkgs.files.getD []) ≠ [] →
      ParseTypes pkgs = .error .configError) ∧
    (pkgs.uniqueDefinitions = none →
      allTypeDefs (pkgs.files.getD []) = [] →
      ParseTypes pkgs = .ok ([], pkgs)) ∧
    (∀ u, pkgs.uniqueDefinitions = some u →
      ParseTypes pkgs ≠ .error .configError) := by
  refine ⟨?_, ?_, ?_⟩
  · intro hu hne
    rw [ParseTypes_eq]
    rw [runSteps_configError _ _ hu hne]
  · intro _ hL
    rw [ParseTypes_eq, hL]
    rfl
  · intro u hu h
    have hno := runSteps_no_configError (allTypeDefs (pkgs.files.getD []))
      ⟨[], pkgs.uniqueDefinitions, pkgs.packages⟩ u hu
    rw [ParseTypes_eq] at h
    cases hrun : runSteps (allTypeDefs (pkgs.files.getD []))
        ⟨[], pkgs.uniqueDefinitions, pkgs.packages⟩ with
    | error e =>
      simp only [hrun] at h
      injection h with h2
      rw [h2] at hrun
      exact hno hrun
    | ok st =>
      simp only [hrun] at h
      cases h

/-- Witness for the amended C7: an uninitialized index together with an
actual type declaration produces the configuration error. -/
theorem ParseTypes_configError_characterization_witness :
    ParseTypes pkgsC7b = .error .configError :=
  (ParseTypes_configError_characterization pkgsC7b).1 (by rfl) (by decide)

/-- C9: a unit registered with an empty package path is tracked but gets
no PackageRecord (the registry never holds the empty key); harvest
returns normally when every harvested type declaration owns a non-empty
package path, and an empty-path type declaration drives harvest into the
missing-record (nil-pointer) partiality branch instead of a normal
return. -/
theorem parseTypes_empty_path_totality (units : List CollectArg) :
    plookup (collect units) "" = none ∧
    ((∀ d ∈ allTypeDefs ((collect units).files.getD []), d.pkgPath ≠ "") →
      ∃ r, ParseTypes (collect units) = .ok r) ∧
    ((∃ d ∈ allTypeDefs ((collect units).files.getD []), d.pkgPath = "") →
      ParseTypes (collect units) = .error .nilPackageRecord) := by
  have hvoid := collect_no_empty_key units
  have hu0 : (collect units).uniqueDefinitions = some [] :=
    collectFrom_unique units NewPackagesDefinitions
  have hpres : ∀ d ∈ allTypeDefs ((collect units).files.getD []),
      d.pkgPath ≠ "" →
      pkgKeyPresent ⟨[], (collect units).uniqueDefinitions,
        (collect units).packages⟩ d.pkgPath := by
    intro d hd hne
    obtain ⟨fi, hfi, hpath⟩ := allTypeDefs_path _ d hd
    rcases collect_registered units fi hfi with h1 | ⟨ps, pd, hps, hl⟩
    · exact absurd (hpath.trans h1) hne
    · refine ⟨pd, ?_⟩
      rw [hplookup_init]
      unfold plookup
      rw [hps, hpath]
      exact hl
  have hnp : ¬ pkgKeyPresent ⟨[], (collect units).uniqueDefinitions,
      (collect units).packages⟩ "" := by
    rintro ⟨pd, hpd⟩
    rw [hplookup_init, hvoid] at hpd
    cases hpd
  refine ⟨hvoid, ?_, ?_⟩
  · intro hall
    obtain ⟨st', hrun⟩ := runSteps_ok_of_present
      (allTypeDefs ((collect units).files.getD []))
      ⟨[], (collect units).uniqueDefinitions, (collect units).packages⟩ [] hu0
      (fun d hd => hpres d hd (hall d hd))
    refine ⟨(st'.parsedSchemas,
      { collect units with uniqueDefinitions := st'.uniqueDefinitions
                           packages := st'.packages }), ?_⟩
    rw [ParseTypes_eq]
    simp only [hrun]
  · intro hex
    rw [ParseTypes_eq]
    rw [runSteps_error_of_empty_path
      (allTypeDefs ((collect units).files.getD []))
      ⟨[], (collect units).uniqueDefinitions, (collect units).packages⟩ [] hu0
      (by intro k e hl; simp [alookup] at hl) hnp hpres hex]

/-- Witness for C9: a concrete collection whose empty-path unit declares
a type makes harvest fail on the missing record. -/
theorem parseTypes_empty_path_totality_witness :
    ParseTypes (collect unitsC9) = .error .nilPackageRecord :=
  (parseTypes_empty_path_totality unitsC9).2.2 (by decide)

/-- C8: over a non-conflicting collection, a second harvest run leaves
every PackageRecord's local type-definition map exactly as the first run
left it. -/
theorem ParseTypes_idempotent (units : List CollectArg)
    (s1 : List (TypeSpecDef × Schema)) (pkgs1 : PackagesDefinitions)
    (hnc : nonConf (allTypeDefs ((collect units).files.getD [])))
    (h1 : ParseTypes (collect units) = .ok (s1, pkgs1)) :
    ∃ s2 pkgs2, ParseTypes pkgs1 = .ok (s2, pkgs2) ∧
      pkgs2.packages = pkgs1.packages := by
  rw [ParseTypes_eq] at h1
  cases hrun : runSteps (allTypeDefs ((collect units).files.getD []))
      ⟨[], (collect units).uniqueDefinitions, (collect units).packages⟩ with
  | error e =>
    simp only [hrun] at h1
    cases h1
  | ok st =>
    simp only [hrun] at h1
    injection h1 with h1'
    have hp1 : ({ collect units with
        uniqueDefinitions := st.uniqueDefinitions,
        packages := st.packages } : PackagesDefinitions) = pkgs1 :=
      congrArg Prod.snd h1'
    subst hp1
    have hu0 : (collect units).uniqueDefinitions = some [] :=
      collectFrom_unique units NewPackagesDefinitions
    obtain ⟨uniq1, hst_u, hag1, hmono1, hcov1⟩ :=
      runSteps_covered (allTypeDefs ((collect units).files.getD [])) hnc
        (allTypeDefs ((collect units).files.getD []))
        ⟨[], (collect units).uniqueDefinitions, (collect units).packages⟩ st []
        (fun d hd => hd) hu0
        (by intro k e hl; simp [alookup] at hl)
        hrun
    obtain ⟨st2, hrun2, hu2, hp2⟩ := runSteps_noop
      (allTypeDefs ((collect units).files.getD []))
      ⟨[], st.uniqueDefinitions, st.packages⟩ uniq1 hst_u hcov1
    refine ⟨st2.parsedSchemas,
      { files := (collect units).files, packages := st2.packages,
        uniqueDefinitions := st2.uniqueDefinitions }, ?_, ?_⟩
    · rw [ParseTypes_eq]
      simp only [hrun2]
    · exact hp2

/-- Witness for C8 at a one-package, one-declaration collection. -/
theorem ParseTypes_idempotent_witness :
    ∃ s2 pkgs2, ParseTypes pkgsW8 = .ok (s2, pkgs2) ∧
      pkgs2.packages = pkgsW8.packages :=
  ParseTypes_idempotent unitsW8 schemasW8 pkgsW8
    (by unfold nonConf; decide) (by rfl)

/-! ### Lemmas: the import scans -/

theorem splitQualifier_no_dot (q : String) (hq : containsDot q = false) :
    splitQualifier q = q := by
  simp [splitQualifier, hq]

theorem scanImports_nil (packages : Option (List (String × PackageDefinitions)))
    (q : String) (b : Bool) : scanImports packages q [] b = (none, b) := rfl

theorem scanImports_cons (packages : Option (List (String × PackageDefinitions)))
    (q : String) (imp : ImportSpec) (l : List ImportSpec) (b : Bool) :
    scanImports packages q (imp :: l) b =
      match imp.name with
      | some n =>
        if n = q then (some (trimQuote imp.path), b)
        else if n = "_" then scanImports packages q l true
        else scanImports packages q l b
      | none =>
        match packages with
        | some ps =>
          match alookup ps (trimQuote imp.path) with
          | some pd =>
            if pd.name = q then (some (trimQuote imp.path), b)
            else scanImports packages q l b
          | none => scanImports packages q l b
        | none => scanImports packages q l b := rfl

theorem scanImports_match (packages : Option (List (String × PackageDefinitions)))
    (q : String) (imp : ImportSpec) (l : List ImportSpec) (b : Bool) (p : String)
    (h : impMatch packages q imp = some p) :
    scanImports packages q (imp :: l) b = (some p, b) := by
  unfold impMatch at h
  rw [scanImports_cons]
  cases hn : imp.name with
  | some n =>
    rw [hn] at h
    simp only [hn]
    by_cases hq : n = q
    · simp only [if_pos hq] at h ⊢
      injection h with h2
      rw [h2]
    · simp only [if_neg hq] at h
      cases h
  | none =>
    rw [hn] at h
    simp only [hn]
    cases packages with
    | none => cases h
    | some ps =>
      cases hl : alookup ps (trimQuote imp.path) with
      | none =>
        simp only [hl] at h
        cases h
      | some pd =>
        simp only [hl] at h ⊢
        by_cases hq : pd.name = q
        · simp only [if_pos hq] at h ⊢
          injection h with h2
          rw [h2]
        · simp only [if_neg hq] at h
          cases h

theorem scanImports_skip (packages : Option (List (String × PackageDefinitions)))
    (q : String) (imp : ImportSpec) (l : List ImportSpec) (b : Bool)
    (h : impMatch packages q imp = none) :
    scanImports packages q (imp :: l) b =
      scanImports packages q l (b || isAnonImport imp) := by
  unfold impMatch at h
  rw [scanImports_cons]
  unfold isAnonImport
  cases hn : imp.name with
  | some n =>
    rw [hn] at h
    simp only [hn]
    by_cases hq : n = q
    · simp only [if_pos hq] at h
      cases h
    · simp only [if_neg hq]
      by_cases ha : n = "_"
      · subst ha
        simp
      · simp only [if_neg ha]
        have : decide (n = "_") = false := decide_eq_false ha
        rw [this, Bool.or_false]
  | none =>
    rw [hn] at h
    simp only [hn, Bool.or_false]
    cases packages with
    | none => rfl
    | some ps =>
      cases hl : alookup ps (trimQuote imp.path) with
      | none => simp only [hl]
      | some pd =>
        simp only [hl] at h ⊢
        by_cases hq : pd.name = q
        · simp only [if_pos hq] at h
          cases h
        · simp only [if_neg hq]

theorem scanImports_first (packages : Option (List (String × PackageDefinitions)))
    (q : String) (l1 : List ImportSpec) :
    ∀ (imp : ImportSpec) (l2 : List ImportSpec) (b : Bool) (p : String),
      (∀ i ∈ l1, impMatch packages q i = none) →
      impMatch packages q imp = some p →
      ∃ b', scanImports packages q (l1 ++ imp :: l2) b = (some p, b') := by
  induction l1 with
  | nil =>
    intro imp l2 b p _ h
    exact ⟨b, scanImports_match packages q imp l2 b p h⟩
  | cons i rest ih =>
    intro imp l2 b p hnone h
    rw [List.cons_append,
      scanImports_skip packages q i _ b (hnone i (List.mem_cons_self _ _))]
    exact ih imp l2 _ p (fun j hj => hnone j (List.mem_cons_of_mem _ hj)) h

theorem scanImports_none (packages : Option (List (String × PackageDefinitions)))
    (q : String) (l : List ImportSpec) :
    ∀ b : Bool, (∀ i ∈ l, impMatch packages q i = none) →
      scanImports packages q l b = (none, b || l.any isAnonImport) := by
  induction l with
  | nil =>
    intro b _
    rw [scanImports_nil]
    simp
  | cons i rest ih =>
    intro b h
    rw [scanImports_skip packages q i rest b (h i (List.mem_cons_self _ _)),
      ih _ (fun j hj => h j (List.mem_cons_of_mem _ hj))]
    simp [List.any_cons, Bool.or_assoc]

theorem scanAnonymous_eq (ps : List (String × PackageDefinitions)) (q : String)
    (l : List ImportSpec) :
    scanAnonymous ps q l = l.findSome? (anonMatch ps q) := by
  induction l with
  | nil => rfl
  | cons imp rest ih =>
    rw [List.findSome?_cons]
    unfold scanAnonymous anonMatch
    cases hn : imp.name with
    | none =>
      simp only [hn]
      exact ih
    | some n =>
      simp only [hn]
      by_cases hq : n = "_"
      · simp only [if_pos hq]
        cases hl : alookup ps (trimQuote imp.path) with
        | none => simp only [hl]; exact ih
        | some pd =>
          simp only [hl]
          by_cases hpd : pd.name = q
          · simp only [if_pos hpd]
          · simp only [if_neg hpd]; exact ih
      · simp only [if_neg hq]
        exact ih

theorem scanImports_sound (packages : Option (List (String × PackageDefinitions)))
    (q : String) (l : List ImportSpec) :
    ∀ (b : Bool) (p : String) (b' : Bool),
      scanImports packages q l b = (some p, b') →
      (∃ imp ∈ l, imp.name = some q ∧ trimQuote imp.path = p) ∨
      (∃ ps pd, packages = some ps ∧ alookup ps p = some pd ∧ pd.name = q) := by
  induction l with
  | nil =>
    intro b p b' h
    rw [scanImports_nil] at h
    injection h with h1 h2
    cases h1
  | cons imp rest ih =>
    intro b p b' h
    rw [scanImports_cons] at h
    cases hn : imp.name with
    | some n =>
      rw [hn] at h
      by_cases hq : n = q
      · simp only [if_pos hq] at h
        injection h with h1 h2
        injection h1 with h1
        left
        exact ⟨imp, List.mem_cons_self _ _, by rw [hn, hq], h1⟩
      · simp only [if_neg hq] at h
        by_cases ha : n = "_"
        · simp only [if_pos ha] at h
          rcases ih _ _ _ h with ⟨imp', h1, h2, h3⟩ | h1
          · exact Or.inl ⟨imp', List.mem_cons_of_mem _ h1, h2, h3⟩
          · exact Or.inr h1
        · simp only [if_neg ha] at h
          rcases ih _ _ _ h with ⟨imp', h1, h2, h3⟩ | h1
          · exact Or.inl ⟨imp', List.mem_cons_of_mem _ h1, h2, h3⟩
          · exact Or.inr h1
    | none =>
      rw [hn] at h
      cases packages with
      | none =>
        rcases ih _ _ _ h with ⟨imp', h1, h2, h3⟩ | h1
        · exact Or.inl ⟨imp', List.mem_cons_of_mem _ h1, h2, h3⟩
        · exact Or.inr h1
      | some ps =>
        cases hl : alookup ps (trimQuote imp.path) with
        | none =>
          simp only [hl] at h
          rcases ih _ _ _ h with ⟨imp', h1, h2, h3⟩ | h1
          · exact Or.inl ⟨imp', List.mem_cons_of_mem _ h1, h2, h3⟩
          · exact Or.inr h1
        | some pd =>
          simp only [hl] at h
          by_cases hq : pd.name = q
          · simp only [if_pos hq] at h
            injection h with h1 h2
            injection h1 with h1
            right
            exact ⟨ps, pd, rfl, by rw [h1] at hl; exact hl, hq⟩
          · simp only [if_neg hq] at h
            rcases ih _ _ _ h with ⟨imp', h1, h2, h3⟩ | h1
            · exact Or.inl ⟨imp', List.mem_cons_of_mem _ h1, h2, h3⟩
            · exact Or.inr h1

theorem scanAnonymous_sound (ps : List (String × PackageDefinitions))
    (q : String) (l : List ImportSpec) :
    ∀ p : String, scanAnonymous ps q l = some p →
      ∃ pd, alookup ps p = some pd ∧ pd.name = q := by
  induction l with
  | nil =>
    intro p h
    cases h
  | cons imp rest ih =>
    intro p h
    unfold scanAnonymous at h
    cases hn : imp.name with
    | none =>
      rw [hn] at h
      exact ih p h
    | some n =>
      rw [hn] at h
      by_cases ha : n = "_"
      · simp only [if_pos ha] at h
        cases hl : alookup ps (trimQuote imp.path) with
        | none =>
          simp only [hl] at h
          exact ih p h
        | some pd =>
          simp only [hl] at h
          by_cases hq : pd.name = q
          · simp only [if_pos hq] at h
            injection h with h1
            exact ⟨pd, by rw [h1] at hl; exact hl, hq⟩
          · simp only [if_neg hq] at h
            exact ih p h
      · simp only [if_neg ha] at h
        exact ih p h

/-- C4 counterexample: an unnamed import that matches the qualifier and
appears before a named import aliased to the same qualifier wins the
scan, so named imports do not take precedence. -/
theorem findPackagePathFromImports_no_named_precedence :
    ((⟨some "models", "\"y/other\""⟩ : ImportSpec) ∈ ctxC4.imports) ∧
    trimQuote "\"y/other\"" = "y/other" ∧
    findPackagePathFromImports pkgsC4 "models" (some ctxC4) = "x/models" ∧
    "x/models" ≠ ("y/other" : String) :=
  ⟨by decide, by decide, by decide, by decide⟩

/-- C4 amended: the first scan returns the path of the first import in
list order matching the qualifier, named (alias equal) and unnamed
(registered short name equal) imports being tried together in one pass;
when nothing matches, the anonymous fallback rescan runs precisely when
some anonymous import was seen, returning the first anonymous import
whose registered short name equals the qualifier. -/
theorem findPackagePathFromImports_scan_order (pkgs : PackagesDefinitions)
    (f : AstFile) (q : String) (hq : containsDot q = false) :
    (∀ (l1 : List ImportSpec) (imp : ImportSpec) (l2 : List ImportSpec)
        (p : String),
      f.imports = l1 ++ imp :: l2 →
      (∀ i ∈ l1, impMatch pkgs.packages q i = none) →
      impMatch pkgs.packages q imp = some p →
      findPackagePathFromImports pkgs q (some f) = p) ∧
    ((∀ i ∈ f.imports, impMatch pkgs.packages q i = none) →
      ((f.imports.any isAnonImport = false →
        findPackagePathFromImports pkgs q (some f) = "") ∧
       (∀ ps, pkgs.packages = some ps →
        f.imports.any isAnonImport = true →
        findPackagePathFromImports pkgs q (some f) =
          (f.imports.findSome? (anonMatch ps q)).getD ""))) := by
  constructor
  · intro l1 imp l2 p hsplit hnone hm
    obtain ⟨b', hb'⟩ := scanImports_first pkgs.packages q l1 imp l2 false p hnone hm
    simp only [findPackagePathFromImports, splitQualifier_no_dot q hq, hsplit, hb']
  · intro hnone
    have hscan := scanImports_none pkgs.packages q f.imports false
      (fun i hi => hnone i hi)
    constructor
    · intro hany
      rw [hany, Bool.or_false] at hscan
      simp only [findPackagePathFromImports, splitQualifier_no_dot q hq, hscan]
      cases pkgs.packages <;> simp
    · intro ps hps hany
      rw [hany, Bool.or_true, hps] at hscan
      simp only [findPackagePathFromImports, splitQualifier_no_dot q hq, hps,
        hscan, scanAnonymous_eq, if_true]

/-- Witness for the amended C4: a qualifier matching only an anonymous
one's registered short name resolves through the fallback rescan. -/
theorem findPackagePathFromImports_scan_order_witness :
    findPackagePathFromImports pkgsC4 "models" (some ctxC4anon) = "x/models" :=
  (((findPackagePathFromImports_scan_order pkgsC4 ctxC4anon "models"
    (by decide)).2 (by decide)).2 psC4 (by rfl) (by decide)).trans (by decide)

/-- C10: when the scan resolves a qualifier, the result either came from
a named import whose alias equals the qualifier, or names a package path
registered in the Package Registry whose record's short name — never the
raw path text — equals the qualifier; unnamed and anonymous imports of
unregistered paths can never resolve a qualifier. -/
theorem findPackagePathFromImports_registered (pkgs : PackagesDefinitions)
    (f : AstFile) (pkgName p : String)
    (hres : findPackagePathFromImports pkgs pkgName (some f) = p)
    (hne : p ≠ "") :
    (∃ imp ∈ f.imports, imp.name = some (splitQualifier pkgName) ∧
      trimQuote imp.path = p) ∨
    (∃ pd, plookup pkgs p = some pd ∧ pd.name = splitQualifier pkgName) := by
  simp only [findPackagePathFromImports] at hres
  cases hscan : scanImports pkgs.packages (splitQualifier pkgName) f.imports false with
  | mk o b =>
    cases o with
    | some path =>
      simp only [hscan] at hres
      subst hres
      rcases scanImports_sound pkgs.packages (splitQualifier pkgName)
          f.imports false path b hscan with ⟨imp, h1, h2, h3⟩ | ⟨ps, pd, h1, h2, h3⟩
      · exact Or.inl ⟨imp, h1, h2, h3⟩
      · right
        refine ⟨pd, ?_, h3⟩
        unfold plookup
        rw [h1]
        exact h2
    | none =>
      simp only [hscan] at hres
      cases hps : pkgs.packages with
      | none =>
        simp only [hps] at hres
        exact absurd hres.symm hne
      | some ps =>
        simp only [hps] at hres
        cases hb : b with
        | false =>
          rw [hb] at hres
          simp only [Bool.false_eq_true, if_false] at hres
          exact absurd hres.symm hne
        | true =>
          rw [hb] at hres
          simp only [if_true] at hres
          cases hanon : scanAnonymous ps (splitQualifier pkgName) f.imports with
          | none =>
            rw [hanon] at hres
            simp only [Option.getD_none] at hres
            exact absurd hres.symm hne
          | some path =>
            rw [hanon] at hres
            simp only [Option.getD_some] at hres
            subst hres
            obtain ⟨pd, h1, h2⟩ := scanAnonymous_sound ps (splitQualifier pkgName)
              f.imports path hanon
            right
            refine ⟨pd, ?_, h2⟩
            unfold plookup
            rw [hps]
            exact h1

/-- Witness for C10: an unnamed import of the registered `x/models`
resolves the qualifier "models". -/
theorem findPackagePathFromImports_registered_witness :
    (∃ imp ∈ ctxC10.imports, imp.name = some (splitQualifier "models") ∧
      trimQuote imp.path = "x/models") ∨
    (∃ pd, plookup pkgsC4 "x/models" = some pd ∧
      pd.name = splitQualifier "models") :=
  findPackagePathFromImports_registered pkgsC4 ctxC10 "models" "x/models"
    (by decide) (by decide)

/-- C5: for a dotted non-primitive reference with a context file, if the
qualifier is not the declared alias of any import the Global Index is
consulted first under the full unsplit reference string and a hit is
returned before any import-based qualifier resolution; if the qualifier
is such an alias, the shortcut lookup is skipped entirely — the result
does not depend on the index entry under the full reference. -/
theorem FindTypeSpec_fullname_shortcut (pkgs : PackagesDefinitions)
    (f : AstFile) (typeName : String)
    (hdot : containsDot typeName = true)
    (hprim : IsGolangPrimitiveType typeName = false) :
    (isAliasPkgName f ((splitDot typeName).getD 0 "") = false →
      ∀ d, ulookup pkgs typeName = some d →
      FindTypeSpec pkgs typeName (some f) = .ok (some d)) ∧
    (isAliasPkgName f ((splitDot typeName).getD 0 "") = true →
      FindTypeSpec pkgs typeName (some f) =
        FindTypeSpec
          { pkgs with
            uniqueDefinitions := (pkgs.uniqueDefinitions).map (fun u => aerase u typeName) }
          typeName (some f)) := by
  constructor
  · intro halias d hd
    simp only [FindTypeSpec, hprim, hdot, halias, hd, Bool.false_eq_true,
      if_false, if_true, Bool.not_false]
  · intro halias
    simp only [FindTypeSpec, hprim, hdot, halias, Bool.false_eq_true,
      if_false, if_true, Bool.not_true]
    rfl

/-- Witness for C5: an index entry under the full reference is returned
directly when the qualifier is not an import alias. -/
theorem FindTypeSpec_fullname_shortcut_witness :
    FindTypeSpec pkgsW5 "models.User" (some ctxW5) = .ok (some defA) :=
  (FindTypeSpec_fullname_shortcut pkgsW5 ctxW5 "models.User"
    (by decide) (by decide)).1 (by decide) defA (by rfl)

/-- C6: when a dotted reference's qualifier matches no import, is not the
context's own package name, and no pseudo-package record exists, the
qualifier resolves to the empty package path and resolution returns
not-found; the final Package-Registry lookup on the empty path is
deterministically none for every type name, because collection never
registers the empty path (the embedding is also structurally
non-recursive, so resolution always terminates). -/
theorem FindTypeSpec_empty_path_not_found (units : List CollectArg)
    (f : AstFile) (typeName : String)
    (hdot : containsDot typeName = true)
    (hprim : IsGolangPrimitiveType typeName = false)
    (hidx : ulookup (collect units) typeName = none)
    (hpath : findPackagePathFromImports (collect units)
      ((splitDot typeName).getD 0 "") (some f) = "")
    (hself : (splitDot typeName).getD 0 "" ≠ f.name)
    (hpseudo : plookup (collect units)
      ("pkg/" ++ (splitDot typeName).getD 0 "") = none) :
    FindTypeSpec (collect units) typeName (some f) = .ok none ∧
    ∀ name, findTypeSpec (collect units) "" name = none := by
  have hempty : ∀ name, findTypeSpec (collect units) "" name = none :=
    fun name => findTypeSpec_empty_of_no_empty_key _ (collect_no_empty_key units) name
  refine ⟨?_, hempty⟩
  have hshort : (if !isAliasPkgName f ((splitDot typeName).getD 0 "")
      then ulookup (collect units) typeName else none) = none := by
    cases isAliasPkgName f ((splitDot typeName).getD 0 "") <;> simp [hidx]
  simp only [FindTypeSpec, hprim, hdot, hshort, hpath, hself, hpseudo, hempty,
    Bool.false_eq_true, if_false, if_true]
  simp [hself]
  exact hempty _

/-- Witness for C6 at a context with no imports and an unmatched
qualifier. -/
theorem FindTypeSpec_empty_path_not_found_witness :
    FindTypeSpec (collect unitsC6) "models.User" (some ctxC6) = .ok none ∧
    findTypeSpec (collect unitsC6) "" "User" = none :=
  ⟨(FindTypeSpec_empty_path_not_found unitsC6 ctxC6 "models.User"
      (by decide) (by decide) (by rfl) (by rfl) (by decide) (by rfl)).1,
   (FindTypeSpec_empty_path_not_found unitsC6 ctxC6 "models.User"
      (by decide) (by decide) (by rfl) (by rfl) (by decide) (by rfl)).2 "User"⟩

end Swag
